import Mathlib

/-!
A shallow embedding of the lisp-like tokenizer in `src/tokenizer.rs`.

The source defines a `Lexer` over an ASCII input string with a cursor
`offset`; the constructor validates that the input is ASCII, and the
iterator method produces the next token (left paren, right paren, or
identifier) or nothing at end of input.

Modelling choices:
- the input string is a `List Char`; since `Lexer::new` enforces ASCII
  input, byte offsets and character offsets coincide, so the Rust byte
  slicing `&input[s..e]` is `(input.take e).drop s` (`strSlice` below);
- the Rust predicate `char::is_alphabetic` agrees with `Char.isAlpha` on the ASCII
  range, which is the only range reachable past construction;
- a Rust panic (the out-of-bounds slice `&self.input[self.offset..]`
  when `offset > len`) is modelled as `Except.error`; all non-panicking
  outcomes are `Except.ok (optional token, successor state)`.
-/

/-- Span from the source: half-open pair of byte offsets.  The Rust
field named end is a Lean keyword, so it is called `stop` here. -/
structure Span where
  start : Nat
  stop : Nat
  deriving Repr, DecidableEq

/-- Ident from the source: a newtype around the text slice of an
identifier. -/
structure Ident where
  name : List Char
  deriving Repr, DecidableEq

/-- TokenType from the source. -/
inductive TokenType where
  | LeftParen
  | RightParen
  | Identifier (ident : Ident)
  deriving Repr, DecidableEq

/-- Token from the source: the source slice, the kind, and the span. -/
structure Token where
  source : List Char
  token : TokenType
  span : Span
  deriving Repr, DecidableEq

/-- Lexer from the source: the borrowed input and the cursor offset. -/
structure Lexer where
  input : List Char
  offset : Nat
  deriving Repr, DecidableEq

/-- The Rust byte slice `&input[s..e]` for `s ≤ e ≤ len`, on the ASCII
inputs the lexer accepts. -/
def strSlice (input : List Char) (s e : Nat) : List Char :=
  (input.take e).drop s

/-- The check `str::is_ascii`: every byte of the UTF-8 encoding is
below 128, i.e. every character is in the ASCII range. -/
def strIsAscii (input : List Char) : Bool :=
  input.all (fun c => c.toNat < 128)

/-- Construction `Lexer::new`: fails when the input is not ASCII,
otherwise starts the cursor at offset 0. -/
def Lexer.new (input : List Char) : Except String Lexer :=
  if strIsAscii input then
    .ok { input := input, offset := 0 }
  else
    .error "Lexer can only read ascii input"

/-- The whitespace loop of `Lexer::next`, run on `input.drop offset`
(the loop is entered with `offset < input.length`, so the list argument
is nonempty at every use site):
`while input[offset] == " " { offset += 1; if offset >= len { return None } }`.
`none` is the early `return None` (at that point the Rust code has
mutated `self.offset` to exactly `input.len()`); `some off` exits the
loop with the cursor on a non-space character. -/
def skipSpacesList : List Char → Nat → Option Nat
  | c :: rest, offset =>
    if c = ' ' then
      if rest.isEmpty then none else skipSpacesList rest (offset + 1)
    else some offset
  | [], offset => some offset

/-- The identifier loop of `Lexer::next`, run on `input.drop offset`
with `end_offset` starting at `offset`:
`for ch in slice.chars() { if !ch.is_alphabetic() { break; } end_offset += 1; }`. -/
def scanIdent : List Char → Nat → Nat
  | [], endOffset => endOffset
  | c :: rest, endOffset =>
    if !c.isAlpha then endOffset else scanIdent rest (endOffset + 1)

/-- The iterator method next of Lexer.  The first slice
`&self.input[self.offset..]` panics (`Except.error`) when the cursor is
past the end; it is empty exactly when `offset = len`.  Otherwise the
whitespace loop, the delimiter match and the identifier scan follow the
source line by line. -/
def Lexer.next (l : Lexer) : Except String (Option Token × Lexer) :=
  if l.input.length < l.offset then
    .error "byte index out of bounds"
  else if l.input.length ≤ l.offset then
    .ok (none, l)
  else
    match skipSpacesList (l.input.drop l.offset) l.offset with
    | none => .ok (none, { l with offset := l.input.length })
    | some off =>
      let ch := l.input.getD off '\x00'
      if ch = '(' || ch = ')' then
        let source := strSlice l.input off (off + 1)
        let token := if ch = '(' then TokenType.LeftParen else TokenType.RightParen
        .ok (some { source := source, token := token, span := { start := off, stop := off + 1 } },
             { l with offset := off + 1 })
      else
        let endOffset := scanIdent (l.input.drop off) off
        let source := strSlice l.input off endOffset
        .ok (some { source := source, token := .Identifier { name := source },
                    span := { start := off, stop := endOffset } },
             { l with offset := endOffset + 1 })

/-- The state reached after `n` calls to `next`, or `none` if some call
panicked along the way. -/
def Lexer.stepState : Lexer → Nat → Option Lexer
  | l, 0 => some l
  | l, n + 1 =>
    match l.next with
    | .ok (_, l') => Lexer.stepState l' n
    | .error _ => none

/-- The tokens emitted over `n` calls to `next` (a panic ends the
collected trace). -/
def Lexer.runTokens : Lexer → Nat → List Token
  | _, 0 => []
  | l, n + 1 =>
    match l.next with
    | .ok (some t, l') => t :: Lexer.runTokens l' n
    | .ok (none, l') => Lexer.runTokens l' n
    | .error _ => []

theorem scanIdent_eq (xs : List Char) (k : Nat) :
    scanIdent xs k = k + (xs.takeWhile (fun c => c.isAlpha)).length := by
  induction xs generalizing k with
  | nil => simp [scanIdent]
  | cons c rest ih =>
    simp only [scanIdent, List.takeWhile]
    by_cases hc : c.isAlpha
    · simp only [hc, Bool.not_true, Bool.false_eq_true, if_false, ih, List.length_cons]
      omega
    · simp [hc]

theorem takeWhile_length_le (p : Char → Bool) (l : List Char) :
    (l.takeWhile p).length ≤ l.length := by
  induction l with
  | nil => simp [List.takeWhile]
  | cons c rest ih =>
    simp only [List.takeWhile]
    split
    · simpa using Nat.succ_le_succ ih
    · simp

theorem take_takeWhile_length (p : Char → Bool) (l : List Char) :
    l.take ((l.takeWhile p).length) = l.takeWhile p := by
  induction l with
  | nil => simp
  | cons c rest ih =>
    simp only [List.takeWhile]
    split
    · simp [List.take, ih]
    · simp

theorem skipSpacesList_some_bounds :
    ∀ (xs : List Char) (off off' : Nat), xs ≠ [] →
      skipSpacesList xs off = some off' → off ≤ off' ∧ off' - off < xs.length := by
  intro xs
  induction xs with
  | nil => intro off off' hne; exact absurd rfl hne
  | cons c rest ih =>
    intro off off' _ h
    simp only [skipSpacesList] at h
    by_cases hc : c = ' '
    · simp only [hc, if_true] at h
      by_cases hr : rest.isEmpty
      · simp [hr] at h
      · simp only [hr, if_false] at h
        have hne : rest ≠ [] := by
          intro he; rw [he] at hr; exact hr rfl
        have := ih (off + 1) off' hne h
        simp only [List.length_cons]
        omega
    · simp only [hc, if_false, Option.some.injEq] at h
      subst h
      simp only [List.length_cons]
      omega

theorem next_drop_ne_nil {l : Lexer}
    (h2 : ¬ l.input.length ≤ l.offset) : l.input.drop l.offset ≠ [] := by
  intro he
  have : (l.input.drop l.offset).length = 0 := by rw [he]; rfl
  rw [List.length_drop] at this
  omega

theorem next_some_spec {l : Lexer} {t : Token} {l' : Lexer}
    (h : l.next = .ok (some t, l')) :
    l'.input = l.input ∧
    l.offset ≤ t.span.start ∧
    t.span.start ≤ t.span.stop ∧
    t.span.stop ≤ l.input.length ∧
    t.span.stop ≤ l'.offset ∧
    l.offset < l'.offset ∧
    l'.offset ≤ t.span.stop + 1 ∧
    t.source = strSlice l.input t.span.start t.span.stop := by
  unfold Lexer.next at h
  split at h
  · simp at h
  · split at h
    · simp at h
    · split at h
      · simp at h
      · rename_i h1 h2 x off hskip
        have hne := next_drop_ne_nil h2
        have hb := skipSpacesList_some_bounds _ _ _ hne hskip
        rw [List.length_drop] at hb
        dsimp only at h
        split at h
        · simp only [Except.ok.injEq, Prod.mk.injEq, Option.some.injEq] at h
          obtain ⟨ht, hl⟩ := h
          subst ht; subst hl
          refine ⟨rfl, ?_, ?_, ?_, ?_, ?_, ?_, rfl⟩ <;> simp <;> omega
        · simp only [Except.ok.injEq, Prod.mk.injEq, Option.some.injEq] at h
          obtain ⟨ht, hl⟩ := h
          subst ht; subst hl
          have hs := scanIdent_eq (l.input.drop off) off
          have hlen := takeWhile_length_le (fun c => c.isAlpha) (l.input.drop off)
          rw [List.length_drop] at hlen
          refine ⟨rfl, ?_, ?_, ?_, ?_, ?_, ?_, rfl⟩ <;> simp <;> omega

theorem next_none_spec {l : Lexer} {l' : Lexer}
    (h : l.next = .ok (none, l')) :
    l'.input = l.input ∧ l.offset ≤ l'.offset ∧ l'.offset = l.input.length := by
  unfold Lexer.next at h
  split at h
  · simp at h
  · split at h
    · rename_i hlt hle
      simp only [Except.ok.injEq, Prod.mk.injEq] at h
      obtain ⟨_, hl⟩ := h
      subst hl
      exact ⟨rfl, Nat.le_refl _, by omega⟩
    · split at h
      · rename_i hlt hle heq
        simp only [Except.ok.injEq, Prod.mk.injEq] at h
        obtain ⟨_, hl⟩ := h
        subst hl
        exact ⟨rfl, by dsimp only; omega, rfl⟩
      · rename_i hlt hle x off hskip
        dsimp only at h
        split at h
        · simp at h
        · simp at h

theorem next_ok_iff (l : Lexer) :
    (∃ r, l.next = .ok r) ↔ l.offset ≤ l.input.length := by
  unfold Lexer.next
  split
  · rename_i hlt
    constructor
    · rintro ⟨r, hr⟩; simp at hr
    · intro hle; omega
  · rename_i hlt
    constructor
    · intro _; omega
    · intro _
      split
      · exact ⟨_, rfl⟩
      · split
        · exact ⟨_, rfl⟩
        · dsimp only
          split
          · exact ⟨_, rfl⟩
          · exact ⟨_, rfl⟩

theorem next_ident_spec {l : Lexer} {t : Token} {l' : Lexer} {id : Ident}
    (h : l.next = .ok (some t, l')) (hid : t.token = .Identifier id) :
    id.name = t.source ∧ id.name.all (fun c => c.isAlpha) ∧
    l'.offset = t.span.stop + 1 := by
  unfold Lexer.next at h
  split at h
  · simp at h
  · split at h
    · simp at h
    · split at h
      · simp at h
      · rename_i hlt hle x off hskip
        dsimp only at h
        split at h
        · simp only [Except.ok.injEq, Prod.mk.injEq, Option.some.injEq] at h
          obtain ⟨ht, hl⟩ := h
          subst ht
          split at hid <;> simp at hid
        · simp only [Except.ok.injEq, Prod.mk.injEq, Option.some.injEq] at h
          obtain ⟨ht, hl⟩ := h
          subst ht; subst hl
          simp only [TokenType.Identifier.injEq] at hid
          subst hid
          refine ⟨rfl, ?_, rfl⟩
          rw [strSlice, scanIdent_eq, List.drop_take,
              Nat.add_sub_cancel_left, take_takeWhile_length]
          simp only [List.all_eq_true]
          intro c hc
          exact List.mem_takeWhile_imp hc

theorem next_none_fixed {l l' : Lexer} (h : l.next = .ok (none, l')) :
    l'.next = .ok (none, l') := by
  obtain ⟨hi, _, hoff⟩ := next_none_spec h
  have he : l'.offset = l'.input.length := by rw [hi, hoff]
  unfold Lexer.next
  rw [he]
  simp

theorem next_ok_offset_le {l : Lexer} {o : Option Token} {l' : Lexer}
    (h : l.next = .ok (o, l')) :
    l'.input = l.input ∧ l.offset ≤ l'.offset ∧ l'.offset ≤ l.input.length + 1 := by
  cases o with
  | none =>
    obtain ⟨hi, hm, he⟩ := next_none_spec h
    exact ⟨hi, hm, by omega⟩
  | some t =>
    obtain ⟨hi, _, _, h4, _, h6, h7, _⟩ := next_some_spec h
    exact ⟨hi, by omega, by omega⟩

theorem new_ok_elim {input : List Char} {l0 : Lexer}
    (h : Lexer.new input = .ok l0) : l0 = { input := input, offset := 0 } := by
  unfold Lexer.new at h
  split at h
  · injection h with h'
    exact h'.symm
  · simp at h

theorem stepState_spec : ∀ (n : Nat) (l l'' : Lexer),
    Lexer.stepState l n = some l'' →
    l''.input = l.input ∧ l.offset ≤ l''.offset ∧
      (l.offset ≤ l.input.length + 1 → l''.offset ≤ l.input.length + 1) := by
  intro n
  induction n with
  | zero =>
    intro l l'' h
    simp only [Lexer.stepState, Option.some.injEq] at h
    subst h
    exact ⟨rfl, Nat.le_refl _, fun hh => hh⟩
  | succ n ih =>
    intro l l'' h
    cases hn : l.next with
    | error e =>
      simp only [Lexer.stepState, hn] at h
      exact absurd h (by simp)
    | ok r =>
      obtain ⟨o, l'⟩ := r
      simp only [Lexer.stepState, hn] at h
      obtain ⟨hi, hm, hb⟩ := next_ok_offset_le hn
      obtain ⟨hi', hm', hb'⟩ := ih l' l'' h
      have hlen : l'.input.length = l.input.length := by rw [hi]
      refine ⟨by rw [hi', hi], Nat.le_trans hm hm', ?_⟩
      intro _
      have hfin := hb' (by omega)
      omega

theorem runTokens_mem_spec : ∀ (n : Nat) (l : Lexer) (t : Token),
    t ∈ Lexer.runTokens l n →
    l.offset ≤ t.span.start ∧ t.span.start ≤ t.span.stop ∧
      t.span.stop ≤ l.input.length := by
  intro n
  induction n with
  | zero =>
    intro l t h
    simp [Lexer.runTokens] at h
  | succ n ih =>
    intro l t h
    cases hn : l.next with
    | error e =>
      simp only [Lexer.runTokens, hn] at h
      simp at h
    | ok r =>
      obtain ⟨o, l'⟩ := r
      cases o with
      | none =>
        simp only [Lexer.runTokens, hn] at h
        obtain ⟨hi, hm, _⟩ := next_none_spec hn
        obtain ⟨h1, h2, h3⟩ := ih l' t h
        have hlen : l'.input.length = l.input.length := by rw [hi]
        exact ⟨by omega, h2, by omega⟩
      | some t0 =>
        simp only [Lexer.runTokens, hn, List.mem_cons] at h
        obtain ⟨hi, hs1, hs2, hs3, hs4, hs5, hs6, _⟩ := next_some_spec hn
        cases h with
        | inl he =>
          subst he
          exact ⟨hs1, hs2, hs3⟩
        | inr hmem =>
          obtain ⟨h1, h2, h3⟩ := ih l' t hmem
          have hlen : l'.input.length = l.input.length := by rw [hi]
          exact ⟨by omega, h2, by omega⟩

theorem runTokens_pairwise : ∀ (n : Nat) (l : Lexer),
    (Lexer.runTokens l n).Pairwise (fun a b => a.span.stop ≤ b.span.start) := by
  intro n
  induction n with
  | zero =>
    intro l
    simp [Lexer.runTokens]
  | succ n ih =>
    intro l
    cases hn : l.next with
    | error e =>
      simp [Lexer.runTokens, hn]
    | ok r =>
      obtain ⟨o, l'⟩ := r
      cases o with
      | none =>
        simp only [Lexer.runTokens, hn]
        exact ih l'
      | some t0 =>
        simp only [Lexer.runTokens, hn]
        refine List.Pairwise.cons ?_ (ih l')
        intro u hu
        obtain ⟨hu1, _, _⟩ := runTokens_mem_spec n l' u hu
        obtain ⟨_, _, _, _, hs4, _, _, _⟩ := next_some_spec hn
        omega

theorem none_fixed_forever {l' : Lexer} (h : l'.next = .ok (none, l')) :
    ∀ n, Lexer.stepState l' n = some l' ∧ Lexer.runTokens l' n = [] := by
  intro n
  induction n with
  | zero => exact ⟨rfl, rfl⟩
  | succ n ih =>
    constructor
    · simp only [Lexer.stepState, h]
      exact ih.1
    · simp only [Lexer.runTokens, h]
      exact ih.2

/-- C1 (amended): a `next` call completes without failure exactly when the
cursor is at most the input length; with the cursor past the end (reachable
after an identifier token ending at the end of input) the initial slice
`&self.input[self.offset..]` fails. -/
theorem c1_next_total_iff_cursor_in_bounds (l : Lexer) :
    (∃ r, l.next = Except.ok r) ↔ l.offset ≤ l.input.length :=
  next_ok_iff l

/-- C1 counterexample: on input `"a"` the first `next` call succeeds and
leaves the cursor at 2 = len + 1; the second `next` call fails (the Rust
code panics on the out-of-bounds slice), so `next` does have a failure
outcome. -/
theorem c1_counterexample :
    Lexer.new ['a'] = Except.ok { input := ['a'], offset := 0 } ∧
    Lexer.next { input := ['a'], offset := 0 } =
      Except.ok (some { source := ['a'], token := .Identifier { name := ['a'] },
                        span := { start := 0, stop := 1 } },
                 { input := ['a'], offset := 2 }) ∧
    Lexer.next { input := ['a'], offset := 2 } =
      Except.error "byte index out of bounds" :=
  ⟨rfl, rfl, rfl⟩

/-- C2 (amended): after construction and after every successful `next`
call, the cursor satisfies `0 ≤ offset ≤ len(input) + 1`; the bound
`len(input)` claimed by the spec is exceeded by one after an identifier
token ending at the end of input. -/
theorem c2_cursor_bounded {input : List Char} {l0 l' : Lexer} {n : Nat}
    (hnew : Lexer.new input = .ok l0) (hstep : l0.stepState n = some l') :
    l'.offset ≤ input.length + 1 := by
  have h0 := new_ok_elim hnew
  subst h0
  obtain ⟨hi, _, hb⟩ := stepState_spec n _ l' hstep
  have := hb (by dsimp only; omega)
  dsimp only at this
  exact this

theorem c2_cursor_bounded_witness :
    Lexer.new ['a'] = Except.ok { input := ['a'], offset := 0 } ∧
    Lexer.stepState { input := ['a'], offset := 0 } 1 = some { input := ['a'], offset := 2 } ∧
    2 ≤ List.length ['a'] + 1 :=
  ⟨rfl, rfl, @c2_cursor_bounded ['a'] { input := ['a'], offset := 0 } { input := ['a'], offset := 2 } 1 rfl rfl⟩

/-- C2 counterexample: on input `"a"` one `next` call moves the cursor to
offset 2, strictly past the end of the one-character input, refuting the
claimed bound `offset ≤ len(input)`. -/
theorem c2_counterexample :
    Lexer.new ['a'] = Except.ok { input := ['a'], offset := 0 } ∧
    Lexer.stepState { input := ['a'], offset := 0 } 1 = some { input := ['a'], offset := 2 } ∧
    List.length ['a'] < 2 :=
  ⟨rfl, rfl, by decide⟩

/-- C3: after every identifier token the cursor is set to
`span.stop + 1`, skipping the character right after the identifier; on
input `"(a)"` the trace is exactly `LeftParen@[0,1)` then
`Identifier "a"@[1,2)`, the cursor jumps to 3 (consuming the `)`), and
the scan is then exhausted. -/
theorem c3_identifier_cursor_skip :
    (∀ (l : Lexer) (t : Token) (l' : Lexer) (id : Ident),
        l.next = .ok (some t, l') → t.token = .Identifier id →
        l'.offset = t.span.stop + 1) ∧
    (Lexer.new ['(', 'a', ')'] = .ok { input := ['(', 'a', ')'], offset := 0 } ∧
     Lexer.next { input := ['(', 'a', ')'], offset := 0 } =
       .ok (some { source := ['('], token := .LeftParen,
                   span := { start := 0, stop := 1 } },
            { input := ['(', 'a', ')'], offset := 1 }) ∧
     Lexer.next { input := ['(', 'a', ')'], offset := 1 } =
       .ok (some { source := ['a'], token := .Identifier { name := ['a'] },
                   span := { start := 1, stop := 2 } },
            { input := ['(', 'a', ')'], offset := 3 }) ∧
     Lexer.next { input := ['(', 'a', ')'], offset := 3 } =
       .ok (none, { input := ['(', 'a', ')'], offset := 3 }) ∧
     ∀ n, Lexer.runTokens { input := ['(', 'a', ')'], offset := 0 } (n + 2) =
       [{ source := ['('], token := .LeftParen, span := { start := 0, stop := 1 } },
        { source := ['a'], token := .Identifier { name := ['a'] },
          span := { start := 1, stop := 2 } }]) := by
  constructor
  · intro l t l' id h hid
    exact (next_ident_spec h hid).2.2
  · refine ⟨rfl, rfl, rfl, rfl, ?_⟩
    intro n
    have h0 : Lexer.next { input := ['(', 'a', ')'], offset := 0 } =
        .ok (some { source := ['('], token := .LeftParen,
                    span := { start := 0, stop := 1 } },
             { input := ['(', 'a', ')'], offset := 1 }) := rfl
    have h1 : Lexer.next { input := ['(', 'a', ')'], offset := 1 } =
        .ok (some { source := ['a'], token := .Identifier { name := ['a'] },
                    span := { start := 1, stop := 2 } },
             { input := ['(', 'a', ')'], offset := 3 }) := rfl
    have h2 : Lexer.next { input := ['(', 'a', ')'], offset := 3 } =
        .ok (none, { input := ['(', 'a', ')'], offset := 3 }) := rfl
    simp only [Lexer.runTokens, h0, h1]
    have := (none_fixed_forever (next_none_fixed h2) n).2
    rw [this]

theorem c3_witness :
    Lexer.next { input := ['a'], offset := 0 } =
      .ok (some { source := ['a'], token := .Identifier { name := ['a'] },
                  span := { start := 0, stop := 1 } },
           { input := ['a'], offset := 2 }) ∧
    (2 : Nat) = 1 + 1 :=
  ⟨rfl, c3_identifier_cursor_skip.1 { input := ['a'], offset := 0 }
      { source := ['a'], token := .Identifier { name := ['a'] },
        span := { start := 0, stop := 1 } }
      { input := ['a'], offset := 2 } { name := ['a'] } rfl rfl⟩

/-- C4: `Lexer::new` succeeds with the cursor at offset 0 for every
all-ASCII input, and fails with the non-ASCII error for every input
containing a character with code point at least 128. -/
theorem c4_create_spec :
    (∀ input : List Char, (∀ c ∈ input, c.toNat < 128) →
        Lexer.new input = .ok { input := input, offset := 0 }) ∧
    (∀ input : List Char, ∀ c ∈ input, 128 ≤ c.toNat →
        Lexer.new input = .error "Lexer can only read ascii input") := by
  constructor
  · intro input h
    have hA : strIsAscii input = true := by
      simp only [strIsAscii, List.all_eq_true, decide_eq_true_eq]
      exact h
    unfold Lexer.new
    rw [if_pos hA]
  · intro input c hc h
    have hA : ¬ strIsAscii input = true := by
      simp only [strIsAscii, List.all_eq_true, decide_eq_true_eq]
      intro hall
      have := hall c hc
      omega
    unfold Lexer.new
    rw [if_neg hA]

theorem c4_witness :
    Lexer.new ['a'] = Except.ok { input := ['a'], offset := 0 } ∧
    Lexer.new [Char.ofNat 200] = Except.error "Lexer can only read ascii input" :=
  ⟨c4_create_spec.1 ['a'] (by decide),
   c4_create_spec.2 [Char.ofNat 200] (Char.ofNat 200) (by decide) (by decide)⟩

/-- C5: over any number of `next` calls from a freshly constructed
lexer, the span of every emitted token lies within `[0, len(input)]`,
and the emitted spans are pairwise ordered: each span starts at or after
the end of every earlier span. -/
theorem c5_spans_in_bounds_and_ordered {input : List Char} {l0 : Lexer}
    (hnew : Lexer.new input = .ok l0) (n : Nat) :
    (∀ t ∈ Lexer.runTokens l0 n,
        t.span.start ≤ t.span.stop ∧ t.span.stop ≤ input.length) ∧
    (Lexer.runTokens l0 n).Pairwise (fun a b => a.span.stop ≤ b.span.start) := by
  have h0 := new_ok_elim hnew
  subst h0
  constructor
  · intro t ht
    obtain ⟨_, h2, h3⟩ := runTokens_mem_spec n _ t ht
    exact ⟨h2, h3⟩
  · exact runTokens_pairwise n _

theorem c5_witness :
    (∀ t ∈ Lexer.runTokens { input := ['(', 'a', ')'], offset := 0 } 3,
        t.span.start ≤ t.span.stop ∧ t.span.stop ≤ List.length ['(', 'a', ')']) ∧
    (Lexer.runTokens { input := ['(', 'a', ')'], offset := 0 } 3).Pairwise
      (fun a b => a.span.stop ≤ b.span.start) :=
  @c5_spans_in_bounds_and_ordered ['(', 'a', ')'] { input := ['(', 'a', ')'], offset := 0 } rfl 3

/-- C6: for every emitted token, the `source` slice equals the substring of the
original input addressed by its span. -/
theorem c6_source_matches_span {l : Lexer} {t : Token} {l' : Lexer}
    (h : l.next = .ok (some t, l')) :
    t.source = strSlice l.input t.span.start t.span.stop :=
  (next_some_spec h).2.2.2.2.2.2.2

theorem c6_witness :
    Lexer.next { input := ['('], offset := 0 } =
      .ok (some { source := ['('], token := .LeftParen,
                  span := { start := 0, stop := 1 } },
           { input := ['('], offset := 1 }) ∧
    (['('] : List Char) = strSlice ['('] 0 1 :=
  ⟨rfl, @c6_source_matches_span { input := ['('], offset := 0 }
      { source := ['('], token := .LeftParen, span := { start := 0, stop := 1 } }
      { input := ['('], offset := 1 } rfl⟩

/-- C7: once a `next` call returns no token, the resulting state is a
fixed point: every later call returns no token (and emits nothing), and
the sequence never resumes. -/
theorem c7_exhaustion_terminal {l l' : Lexer}
    (h : l.next = .ok (none, l')) :
    l'.next = .ok (none, l') ∧
    ∀ n, Lexer.stepState l' n = some l' ∧ Lexer.runTokens l' n = [] := by
  have hfix := next_none_fixed h
  exact ⟨hfix, none_fixed_forever hfix⟩

theorem c7_witness :
    Lexer.next { input := ([] : List Char), offset := 0 } =
      Except.ok (none, { input := ([] : List Char), offset := 0 }) ∧
    (Lexer.next { input := ([] : List Char), offset := 0 } =
       Except.ok (none, { input := ([] : List Char), offset := 0 }) ∧
     ∀ n, Lexer.stepState { input := ([] : List Char), offset := 0 } n =
            some { input := ([] : List Char), offset := 0 } ∧
          Lexer.runTokens { input := ([] : List Char), offset := 0 } n = []) :=
  ⟨rfl, @c7_exhaustion_terminal { input := ([] : List Char), offset := 0 }
      { input := ([] : List Char), offset := 0 } rfl⟩

/-- C8: the whitespace loop skips nothing when the character under the
cursor is not the ASCII space; on input `"\t("` construction succeeds and
the first `next` call does not skip the tab but emits an empty-name
identifier token with span `[0,0)`, then advances the cursor past the
tab. -/
theorem c8_only_space_skipped :
    (∀ (c : Char) (rest : List Char) (off : Nat), c ≠ ' ' →
        skipSpacesList (c :: rest) off = some off) ∧
    (Lexer.new ['\t', '('] = .ok { input := ['\t', '('], offset := 0 } ∧
     Lexer.next { input := ['\t', '('], offset := 0 } =
       .ok (some { source := [], token := .Identifier { name := [] },
                   span := { start := 0, stop := 0 } },
            { input := ['\t', '('], offset := 1 })) := by
  refine ⟨?_, rfl, rfl⟩
  intro c rest off hc
  simp [skipSpacesList, hc]

theorem c8_witness : skipSpacesList ['\t', '('] 0 = some 0 :=
  c8_only_space_skipped.1 '\t' ['('] 0 (by decide)

/-- C9 (amended): the name of every identifier token equals its source slice
and consists only of alphabetic characters, but it may be empty: the
non-emptiness asserted by the spec does not hold. -/
theorem c9_identifier_name_alphabetic {l : Lexer} {t : Token} {l' : Lexer}
    {id : Ident}
    (h : l.next = .ok (some t, l')) (hid : t.token = .Identifier id) :
    id.name = t.source ∧ id.name.all (fun c => c.isAlpha) :=
  ⟨(next_ident_spec h hid).1, (next_ident_spec h hid).2.1⟩

theorem c9_witness :
    Lexer.next { input := ['a'], offset := 0 } =
      .ok (some { source := ['a'], token := .Identifier { name := ['a'] },
                  span := { start := 0, stop := 1 } },
           { input := ['a'], offset := 2 }) ∧
    (['a'] : List Char) = ['a'] ∧ (['a'] : List Char).all (fun c => c.isAlpha) :=
  ⟨rfl, @c9_identifier_name_alphabetic { input := ['a'], offset := 0 }
      { source := ['a'], token := .Identifier { name := ['a'] },
        span := { start := 0, stop := 1 } }
      { input := ['a'], offset := 2 } { name := ['a'] } rfl rfl⟩

/-- C9 counterexample: on the ASCII input `"1"` the first `next` call
emits an identifier token whose name is the empty slice, so identifier
names are not always non-empty. -/
theorem c9_counterexample :
    Lexer.new ['1'] = .ok { input := ['1'], offset := 0 } ∧
    Lexer.next { input := ['1'], offset := 0 } =
      .ok (some { source := [], token := .Identifier { name := [] },
                  span := { start := 0, stop := 0 } },
           { input := ['1'], offset := 1 }) ∧
    List.length ([] : List Char) = 0 :=
  ⟨rfl, rfl, rfl⟩

/-- C10: whenever the span of an identifier token ends exactly at the end of
the input, the cursor afterwards is `len(input) + 1`; concretely on the
one-character input `"a"` the first `next` call returns
`Identifier "a"@[0,1)` and leaves the cursor at offset 2. -/
theorem c10_cursor_one_past_end :
    (∀ (l : Lexer) (t : Token) (l' : Lexer) (id : Ident),
        l.next = .ok (some t, l') → t.token = .Identifier id →
        t.span.stop = l.input.length → l'.offset = l.input.length + 1) ∧
    (Lexer.new ['a'] = .ok { input := ['a'], offset := 0 } ∧
     Lexer.next { input := ['a'], offset := 0 } =
       .ok (some { source := ['a'], token := .Identifier { name := ['a'] },
                   span := { start := 0, stop := 1 } },
            { input := ['a'], offset := 2 }) ∧
     (2 : Nat) = List.length ['a'] + 1) := by
  refine ⟨?_, rfl, rfl, rfl⟩
  intro l t l' id h hid hstop
  have := (next_ident_spec h hid).2.2
  omega

theorem c10_witness :
    Lexer.next { input := ['a'], offset := 0 } =
      .ok (some { source := ['a'], token := .Identifier { name := ['a'] },
                  span := { start := 0, stop := 1 } },
           { input := ['a'], offset := 2 }) ∧
    (2 : Nat) = List.length ['a'] + 1 :=
  ⟨rfl, c10_cursor_one_past_end.1 { input := ['a'], offset := 0 }
      { source := ['a'], token := .Identifier { name := ['a'] },
        span := { start := 0, stop := 1 } }
      { input := ['a'], offset := 2 } { name := ['a'] } rfl rfl rfl⟩
